import Mathlib

/-!
# Verification of the whisper-segment-extractor boundary-resolution core

Shallow embedding of the boundary-resolution logic of the repository
(src/smart_extract.py, src/fast_extract.py, src/extract_conversation.py,
src/batch_extract_conversation.py) and proofs about it.

Times (float seconds in the source) are modelled as rationals; Python
strings are modelled as lists of characters (a Python `str` is a sequence
of code points).  Audio-millisecond positions are modelled as integers.
-/

/-! ## Python string primitives

Direct models of the Python string operations the source uses:
`str.strip()`, `str.lower()`, the substring test `in`, and `str.split()`
with no argument (split on whitespace runs, dropping empty pieces).
-/

/-- Python `str.strip()`: drop leading and trailing whitespace. -/
def pyStrip (t : List Char) : List Char :=
  ((t.dropWhile Char.isWhitespace).reverse.dropWhile Char.isWhitespace).reverse

/-- Python `str.lower()` (modelled with `Char.toLower`). -/
def pyLower (t : List Char) : List Char := t.map Char.toLower

/-- Does `pat` occur at the head of `text`? -/
def pyStartsWith : List Char → List Char → Bool
  | [], _ => true
  | _ :: _, [] => false
  | p :: ps, c :: cs => p == c && pyStartsWith ps cs

/-- Python substring test `pat in text`. -/
def pyIn (pat : List Char) : List Char → Bool
  | [] => pat.isEmpty
  | c :: rest => pyStartsWith pat (c :: rest) || pyIn pat rest

/-- Helper for `pyWords`: accumulates the current word (reversed). -/
def pyWordsAux (cur : List Char) : List Char → List (List Char)
  | [] => if cur.isEmpty then [] else [cur.reverse]
  | c :: rest =>
    if c.isWhitespace then
      if cur.isEmpty then pyWordsAux [] rest else cur.reverse :: pyWordsAux [] rest
    else
      pyWordsAux (c :: cur) rest

/-- Python `str.split()` with no separator: split on whitespace runs,
dropping empty pieces. -/
def pyWords (t : List Char) : List (List Char) := pyWordsAux [] t

/-- Python truthiness of an optional float: `None` and `0.0` are falsy.
The source tests `if anchor_end_time:` on such a value. -/
def pyTruthy : Option ℚ → Bool
  | none => false
  | some q => decide (q ≠ 0)

/-! ## Data model -/

/-- A transcript segment (Whisper output): `{start, end, text}`.
The source's field `end` is a Lean keyword, hence `endT`. -/
structure Segment where
  start : ℚ
  endT : ℚ
  text : List Char
deriving DecidableEq

/-- An audio label interval from inaSpeechSegmenter: `(label, start, end)`
with labels such as "music", "male", "female", "noEnergy". -/
structure LabeledInterval where
  label : String
  start : ℚ
  endT : ℚ
deriving DecidableEq

/-! ## ContentClassifier

Embeds `SmartConversationExtractor._is_english_segment`
(src/smart_extract.py lines 77-117).  The source hardcodes its
thresholds (`len(text) < 12`, a fixed denylist, `len(words) < 2`); the
embedding lifts them into a `ClassificationThresholds` record, and
`defaultThresholds` holds exactly the source's constants, so
`isEnglishSegment = isTargetContent defaultThresholds` is the source
function verbatim.
-/

/-- Is `c` in the excluded-language (Hangul syllable) range
`'가' <= c <= '힣'` of src/smart_extract.py line 85? -/
def isKoreanChar (c : Char) : Bool := decide ('가' ≤ c) && decide (c ≤ '힣')

/-- `any('가' <= c <= '힣' for c in text)`. -/
def hasKorean (t : List Char) : Bool := t.any isKoreanChar

/-- The classifier's tunables (spec §3 ClassificationThresholds). -/
structure ClassificationThresholds where
  minLength : Nat
  minWordCount : Nat
  denylist : List (List Char)
deriving DecidableEq

/-- The `korean_transliteration_patterns` list of src/smart_extract.py
lines 96-101, verbatim. -/
def koreanTransliterationPatterns : List (List Char) :=
  ["입영작".toList, "타임".toList, "패턴".toList, "만나볼까요".toList,
   "연기".toList, "연습".toList, "읽어볼게요".toList, "전체대화".toList,
   "듣겠습니다".toList, "주세요".toList, "그렇죠".toList, "여러분".toList,
   "이거".toList, "활용".toList, "갈게요".toList, "졸업했어".toList,
   "뺐어".toList, "파운드".toList, "개월".toList, "kg".toList]

/-- `_is_english_segment` (src/smart_extract.py lines 77-117) with the
hardcoded thresholds lifted to a parameter: strip; reject empty; reject
any Hangul character; reject short text; reject case-insensitive denylist
hits; reject too few whitespace-separated words; otherwise accept. -/
def isTargetContent (cfg : ClassificationThresholds) (text : List Char) : Bool :=
  let t := pyStrip text
  if t.isEmpty then false
  else if hasKorean t then false
  else if t.length < cfg.minLength then false
  else if cfg.denylist.any (fun p => pyIn (pyLower p) (pyLower t)) then false
  else if (pyWords t).length < cfg.minWordCount then false
  else true

/-- The constants hardcoded in `_is_english_segment`: `12`, `2`, and the
`korean_transliteration_patterns` list. -/
def defaultThresholds : ClassificationThresholds :=
  { minLength := 12
    minWordCount := 2
    denylist := koreanTransliterationPatterns }

/-- `_is_english_segment` at the source's own constants. -/
def isEnglishSegment (text : List Char) : Bool :=
  isTargetContent defaultThresholds text

/-! ## AnchorLocator

Embeds the anchor search of `find_anchor_and_extract_smart`
(src/smart_extract.py lines 165-205) and of
`FastConversationExtractor.find_anchor_and_extract`
(src/fast_extract.py lines 75-121).  Both keep a Python variable
`anchor_end_time` initialised to `None` and, after the phrase loop of
each step, execute `if anchor_end_time: break` — a truthiness test, so a
recorded end time of exactly `0.0` does not stop the scan.  The merged
(pass-2) search is gated on `if anchor_end_time is None:`.
-/

/-- One step of the single-segment pass: record `segment.end` when any
phrase occurs in the stripped text. -/
def anchorHit (phrases : List (List Char)) (seg : Segment) : Bool :=
  phrases.any (fun a => pyIn a (pyStrip seg.text))

/-- Pass 1 of src/smart_extract.py lines 171-183: scan segments carrying
the current `anchor_end_time`, breaking only when it is truthy. -/
def smartPass1 (phrases : List (List Char)) (cur : Option ℚ) :
    List Segment → Option ℚ
  | [] => cur
  | seg :: rest =>
    let cur := if anchorHit phrases seg then some seg.endT else cur
    if pyTruthy cur then cur else smartPass1 phrases cur rest

/-- Does any phrase occur in the stripped concatenation of three
consecutive segment texts (src/smart_extract.py lines 190-197)? -/
def mergedHit (phrases : List (List Char)) (s1 s2 s3 : Segment) : Bool :=
  phrases.any (fun a => pyIn a (pyStrip (s1.text ++ s2.text ++ s3.text)))

/-- Pass 2 of src/smart_extract.py lines 186-205: sliding window of three
consecutive segments (`i < len(segments) - 2`), recording the third
segment's end, breaking only on a truthy value. -/
def smartPass2 (phrases : List (List Char)) (cur : Option ℚ) :
    List Segment → Option ℚ
  | s1 :: s2 :: s3 :: rest =>
    let cur := if mergedHit phrases s1 s2 s3 then some s3.endT else cur
    if pyTruthy cur then cur else smartPass2 phrases cur (s2 :: s3 :: rest)
  | _ => cur

/-- The anchor search of src/smart_extract.py lines 165-209: pass 2 runs
only when pass 1 left `anchor_end_time is None`; `none` means the
function returns `(False, None, None)`. -/
def smartFindAnchor (segments : List Segment) (phrases : List (List Char)) :
    Option ℚ :=
  match smartPass1 phrases none segments with
  | none => smartPass2 phrases none segments
  | some v => some v

/-- Pass 1 of src/fast_extract.py lines 81-94: identical to the smart
variant except that segments with `start < search_start_time` are
skipped. -/
def fastPass1 (searchFrom : ℚ) (phrases : List (List Char)) (cur : Option ℚ) :
    List Segment → Option ℚ
  | [] => cur
  | seg :: rest =>
    if searchFrom ≤ seg.start then
      let cur := if anchorHit phrases seg then some seg.endT else cur
      if pyTruthy cur then cur else fastPass1 searchFrom phrases cur rest
    else fastPass1 searchFrom phrases cur rest

/-- Pass 2 of src/fast_extract.py lines 97-117: the window is examined
when its first segment satisfies `start >= search_start_time` and
`i < len(segments) - 2`. -/
def fastPass2 (searchFrom : ℚ) (phrases : List (List Char)) (cur : Option ℚ) :
    List Segment → Option ℚ
  | s1 :: s2 :: s3 :: rest =>
    if searchFrom ≤ s1.start then
      let cur := if mergedHit phrases s1 s2 s3 then some s3.endT else cur
      if pyTruthy cur then cur else fastPass2 searchFrom phrases cur (s2 :: s3 :: rest)
    else fastPass2 searchFrom phrases cur (s2 :: s3 :: rest)
  | _ => cur

/-- The anchor search of src/fast_extract.py lines 75-121. -/
def fastFindAnchor (searchFrom : ℚ) (segments : List Segment)
    (phrases : List (List Char)) : Option ℚ :=
  match fastPass1 searchFrom phrases none segments with
  | none => fastPass2 searchFrom phrases none segments
  | some v => some v

/-! ### Spec-side anchor model (for the refinement comparison)

These definitions follow the words of spec §4.1: pass 1 returns the
**first** matching segment's end; pass 2 runs only if pass 1 finds
nothing and returns the first matching window's third-segment end.  They
are compared with the source embeddings above.
-/

/-- Spec §4.1 pass 1: the first segment whose text contains any phrase. -/
def specPass1 (segments : List Segment) (phrases : List (List Char)) :
    Option ℚ :=
  (segments.find? (anchorHit phrases)).map (·.endT)

/-- Spec §4.1 pass 2: the first three-segment window whose concatenated
text contains a phrase. -/
def specPass2 (phrases : List (List Char)) : List Segment → Option ℚ
  | s1 :: s2 :: s3 :: rest =>
    if mergedHit phrases s1 s2 s3 then some s3.endT
    else specPass2 phrases (s2 :: s3 :: rest)
  | _ => none

/-- Spec §4.1 `locate` without the `search_from` restriction. -/
def specLocate (segments : List Segment) (phrases : List (List Char)) :
    Option ℚ :=
  match specPass1 segments phrases with
  | some v => some v
  | none => specPass2 phrases segments

/-- Spec §4.1 pass 1 with the `search_from` restriction of step 1: the
first segment at or after `search_from` whose text contains a phrase. -/
def specFastPass1 (searchFrom : ℚ) (phrases : List (List Char)) :
    List Segment → Option ℚ
  | [] => none
  | seg :: rest =>
    if searchFrom ≤ seg.start ∧ anchorHit phrases seg = true then some seg.endT
    else specFastPass1 searchFrom phrases rest

/-- Spec §4.1 pass 2 restricted to windows whose first segment starts at
or after `search_from` (as the fast variant implements it). -/
def specFastPass2 (searchFrom : ℚ) (phrases : List (List Char)) :
    List Segment → Option ℚ
  | s1 :: s2 :: s3 :: rest =>
    if searchFrom ≤ s1.start ∧ mergedHit phrases s1 s2 s3 = true then some s3.endT
    else specFastPass2 searchFrom phrases (s2 :: s3 :: rest)
  | _ => none

/-- Spec §4.1 `locate` with the `search_from` restriction. -/
def specFastLocate (searchFrom : ℚ) (segments : List Segment)
    (phrases : List (List Char)) : Option ℚ :=
  match specFastPass1 searchFrom phrases segments with
  | some v => some v
  | none => specFastPass2 searchFrom phrases segments

/-! ## BoundaryTracker

Embeds the English-conversation detection loop of
`find_anchor_and_extract_smart` (src/smart_extract.py lines 249-317):
`timeout = 60.0`, `gap_threshold = 15.0`, the stricter 5-second gap after
a confirmed run, `first_conversation_min_count = 3`, and
`last_end_time` initialised to the anchor end time.  (Lines 366-567 of
the same function are unreachable dead code after the `return` on line
365 and are not part of this loop.)
-/

/-- Loop state: `english_start_time`, `english_end_time`,
`last_end_time`, `consecutive_valid`, `first_conversation_found`. -/
structure TrackState where
  englishStart : Option ℚ
  englishEnd : Option ℚ
  lastEnd : ℚ
  consecutive : Nat
  firstFound : Bool
deriving DecidableEq

/-- The state before the loop (src/smart_extract.py lines 251-260). -/
def initState (anchor : ℚ) : TrackState :=
  { englishStart := none
    englishEnd := none
    lastEnd := anchor
    consecutive := 0
    firstFound := false }

/-- Whether a loop step continues to the next segment or breaks. -/
inductive StepResult where
  | cont (st : TrackState)
  | stop (st : TrackState)
deriving DecidableEq

/-- One iteration of the loop body (src/smart_extract.py lines 262-311):
skip segments before the anchor; break on timeout while nothing was
found; on a content segment extend the window, bump the counter and
latch `first_conversation_found` at 3; on a non-content segment break
when the gap exceeds 5 s (after the first conversation set) or 15 s
(before it), else reset the counter. -/
def trackStep (anchor : ℚ) (st : TrackState) (seg : Segment) : StepResult :=
  if seg.start < anchor then
    StepResult.cont st
  else if st.englishStart = none ∧ anchor + 60 < seg.start then
    StepResult.stop st
  else if isEnglishSegment seg.text then
    let newStart := match st.englishStart with
      | none => seg.start
      | some s => s
    let newConsec := st.consecutive + 1
    StepResult.cont
      { englishStart := some newStart
        englishEnd := some seg.endT
        lastEnd := seg.endT
        consecutive := newConsec
        firstFound := st.firstFound || decide (3 ≤ newConsec) }
  else if st.firstFound = true ∧ st.englishStart ≠ none ∧ 5 < seg.start - st.lastEnd then
    StepResult.stop st
  else if st.englishStart ≠ none ∧ st.firstFound = false ∧ 15 < seg.start - st.lastEnd then
    StepResult.stop st
  else
    StepResult.cont { st with consecutive := 0 }

/-- Runs the loop over the segment stream. -/
def runTracker (anchor : ℚ) (st : TrackState) : List Segment → TrackState
  | [] => st
  | seg :: rest =>
    match trackStep anchor st seg with
    | StepResult.cont st' => runTracker anchor st' rest
    | StepResult.stop st' => st'

/-- The tracker's outcome (src/smart_extract.py lines 315-321): the
window `(english_start_time, english_end_time)` when both were set,
otherwise no window (the fixed-duration fallback is triggered). -/
def boundaryTrack (anchor : ℚ) (segments : List Segment) : Option (ℚ × ℚ) :=
  let fin := runTracker anchor (initState anchor) segments
  match fin.englishStart, fin.englishEnd with
  | some s, some e => some (s, e)
  | _, _ => none

/-- The fixed fallback window computed by `_extract_fixed`
(src/smart_extract.py lines 569-575): `start_offset = 46`,
`duration = 50`. -/
def extractFixedWindow (anchor : ℚ) : ℚ × ℚ :=
  (anchor + 46, anchor + 46 + 50)

/-- The outcome of the live extraction tail (src/smart_extract.py lines
315-317).  When no window was found the source executes
`return self._extract_fixed(audio_path, anchor_end_time, base_name, result)`,
but no variable named `result` exists in `find_anchor_and_extract_smart`
(only `result_ko` and `result_en` do), so Python raises `NameError`
before `_extract_fixed` runs; the error outcome records that. -/
def smartExtractOutcome (anchor : ℚ) (segments : List Segment) :
    Except String (ℚ × ℚ) :=
  match boundaryTrack anchor segments with
  | some w => Except.ok w
  | none => Except.error "NameError: name result is not defined"

/-! ## Music-segment path

Embeds `BatchConversationExtractor.extract_music_segment`
(src/batch_extract_conversation.py lines 92-174): filter label intervals
to those starting at or after the anchor, then scan for the
music/male/female content run, ending on a silence longer than 2 s or on
any other label once content was seen.
-/

/-- Loop state of lines 127-131: `extract_start`, `extract_end`,
`looking_for_content`. -/
structure MusicState where
  exStart : ℚ
  exEnd : ℚ
  looking : Bool
deriving DecidableEq

/-- Is the label one of `['music', 'male', 'female']`? -/
def isContentLabel (l : String) : Bool :=
  l == "music" || l == "male" || l == "female"

/-- The scan of src/batch_extract_conversation.py lines 134-150 over the
filtered intervals (`silence_threshold = 2.0`). -/
def musicScan (st : MusicState) : List LabeledInterval → ℚ × ℚ
  | [] => (st.exStart, st.exEnd)
  | seg :: rest =>
    if isContentLabel seg.label then
      musicScan
        { exStart := if st.looking then seg.start else st.exStart
          exEnd := seg.endT
          looking := false } rest
    else if seg.label == "noEnergy" then
      if st.looking = false ∧ 2 < seg.endT - seg.start then (st.exStart, st.exEnd)
      else musicScan st rest
    else
      if st.looking = false then (st.exStart, st.exEnd)
      else musicScan st rest

/-- The window computed by `extract_music_segment`
(src/batch_extract_conversation.py lines 109-153): `none` models the
branch that falls back to `_extract_simple` when no interval starts at
or after the anchor; otherwise the scan starts from
`extract_start = extract_end = anchor_end_time`. -/
def extractMusicWindow (anchor : ℚ) (labels : List LabeledInterval) :
    Option (ℚ × ℚ) :=
  let target := labels.filter (fun l => decide (anchor ≤ l.start))
  if target.isEmpty then none
  else some (musicScan { exStart := anchor, exEnd := anchor, looking := true } target)

/-! ## AudioLabelRefiner (modelled from the spec)

No acceptance-band refiner exists under src/: the lines the spec derives
it from (src/smart_extract.py lines 479-527) are unreachable dead code
implementing a different, label-scan ending rule, and nothing in the
repository computes a `candidate_end` or a `diff` acceptance band.
-/

/-- Modelled from the spec: §4.4 step 1 of `AudioLabelRefiner.refine` —
the Music-labeled intervals whose `start < window.end + tolerance_lead`
with `tolerance_lead = 2`. -/
def musicCandidates (wEnd : ℚ) (labels : List LabeledInterval) :
    List LabeledInterval :=
  labels.filter (fun l => l.label == "music" && decide (l.start < wEnd + 2))

/-- Modelled from the spec: the latest `end` among a list of intervals
(`none` when the list is empty). -/
def latestEnd : List LabeledInterval → Option ℚ
  | [] => none
  | l :: rest =>
    match latestEnd rest with
    | none => some l.endT
    | some m => some (max l.endT m)

/-- Modelled from the spec: §4.4 `candidate_end` — the latest end among
the qualifying Music intervals. -/
def candidateEnd (wEnd : ℚ) (labels : List LabeledInterval) : Option ℚ :=
  latestEnd (musicCandidates wEnd labels)

/-- Modelled from the spec: §4.4 `AudioLabelRefiner.refine` — replace
`window.end` by `candidate_end` exactly when
`-10 < candidate_end - window.end < 5`, else leave the window
unchanged. -/
def refine (w : ℚ × ℚ) (labels : List LabeledInterval) : ℚ × ℚ :=
  match candidateEnd w.2 labels with
  | none => w
  | some ce => if -10 < ce - w.2 ∧ ce - w.2 < 5 then (w.1, ce) else w

/-! ## Script export and fixed-duration slicing -/

/-- `SmartConversationExtractor.extract_script_text`
(src/smart_extract.py lines 44-68): one line per transcript segment
overlapping the window (`seg_start <= end_time and seg_end >= start_time`),
in stream order; each line carries the segment's times and stripped text
(the numeric minute formatting is not modelled). -/
def extractScriptText (segments : List Segment) (startTime endTime : ℚ) :
    List (ℚ × ℚ × List Char) :=
  match segments with
  | [] => []
  | seg :: rest =>
    if seg.start ≤ endTime ∧ startTime ≤ seg.endT then
      (seg.start, seg.endT, pyStrip seg.text) :: extractScriptText rest startTime endTime
    else
      extractScriptText rest startTime endTime

/-- Python `int()` on a float: truncation toward zero. -/
def pyIntTrunc (q : ℚ) : ℤ := if 0 ≤ q then ⌊q⌋ else ⌈q⌉

/-- The millisecond slice bounds shared by the three fixed-duration
extractors: `start_ms = int(start_seconds * 1000)`;
`end_ms = min(start_ms + duration_ms, len(audio))`. -/
def clampedSliceMs (startSeconds : ℚ) (durationMs audioLenMs : ℤ) : ℤ × ℤ :=
  let startMs := pyIntTrunc (startSeconds * 1000)
  (startMs, min (startMs + durationMs) audioLenMs)

/-- `_extract_fixed` slice (src/smart_extract.py lines 569-585):
`start = anchor_end_time + 46`, 50 s duration. -/
def fixedSliceMs (anchorEnd : ℚ) (audioLenMs : ℤ) : ℤ × ℤ :=
  clampedSliceMs (anchorEnd + 46) (50 * 1000) audioLenMs

/-- `find_anchor_and_extract` slice (src/fast_extract.py lines 123-136):
`actual_start_time = anchor_end_time + start_offset`. -/
def fastSliceMs (anchorEnd startOffset : ℚ) (durationSec audioLenMs : ℤ) :
    ℤ × ℤ :=
  clampedSliceMs (anchorEnd + startOffset) (durationSec * 1000) audioLenMs

/-- `extract_segment_simple` slice (src/extract_conversation.py lines
96-104): starts at the anchor end itself. -/
def simpleSliceMs (anchorEnd : ℚ) (durationSec audioLenMs : ℤ) : ℤ × ℤ :=
  clampedSliceMs anchorEnd (durationSec * 1000) audioLenMs

/-! ## Concrete inputs used in witnesses and counterexamples -/

/-- A plainly English transcript text (passes every classifier rule). -/
def cexTextEn1 : List Char := "hello my name is thomas".toList

/-- A Hangul transcript text (rejected by the excluded-range rule). -/
def cexTextKo : List Char := "여기서 한국어 설명이 시작됩니다".toList

/-- Another plainly English transcript text. -/
def cexTextEn2 : List Char := "nice to meet you my friend".toList

/-- A text that fails the minimum-length rule (shorter than 12). -/
def cexTextShort : List Char := "ok then".toList

/-! # Theorems -/

/-! ## Helper lemmas on the string primitives and the classifier -/

theorem mem_dropWhile_of_not {c : Char} {p : Char → Bool} :
    ∀ {l : List Char}, c ∈ l → p c = false → c ∈ l.dropWhile p
  | [], h, _ => absurd h (List.not_mem_nil c)
  | a :: l, h, hp => by
    by_cases ha : p a = true
    · rw [List.dropWhile_cons_of_pos ha]
      rcases List.mem_cons.1 h with rfl | hmem
      · rw [ha] at hp; exact absurd hp (by simp)
      · exact mem_dropWhile_of_not hmem hp
    · rw [List.dropWhile_cons_of_neg ha]
      exact h

theorem mem_pyStrip_of_not_ws {c : Char} {t : List Char}
    (h : c ∈ t) (hw : c.isWhitespace = false) : c ∈ pyStrip t := by
  unfold pyStrip
  rw [List.mem_reverse]
  apply mem_dropWhile_of_not _ hw
  rw [List.mem_reverse]
  exact mem_dropWhile_of_not h hw

theorem isKoreanChar_not_ws {c : Char} (h : isKoreanChar c = true) :
    c.isWhitespace = false := by
  simp only [isKoreanChar, Bool.and_eq_true, decide_eq_true_eq] at h
  have hval : ('가' : Char).val ≤ c.val := h.1
  by_contra hws
  rw [Bool.not_eq_false] at hws
  have hcases : c = ' ' ∨ c = '\t' ∨ c = '\r' ∨ c = '\n' := by
    simpa [Char.isWhitespace, or_assoc] using hws
  rcases hcases with h1 | h1 | h1 | h1 <;>
    (subst h1; exact absurd hval (by decide))

theorem hasKorean_pyStrip {t : List Char} (h : hasKorean t = true) :
    hasKorean (pyStrip t) = true := by
  rcases List.any_eq_true.1 h with ⟨c, hc, hk⟩
  exact List.any_eq_true.2
    ⟨c, mem_pyStrip_of_not_ws hc (isKoreanChar_not_ws hk), hk⟩

theorem isTargetContent_false_of_hasKorean (cfg : ClassificationThresholds)
    {t : List Char} (h : hasKorean t = true) :
    isTargetContent cfg t = false := by
  unfold isTargetContent
  by_cases he : (pyStrip t).isEmpty
  · simp [he]
  · simp [he, hasKorean_pyStrip h]

theorem pyStrip_eq_nil {t : List Char}
    (h : ∀ c ∈ t, c.isWhitespace = true) : pyStrip t = [] := by
  have h1 : t.dropWhile Char.isWhitespace = [] := by
    rw [List.dropWhile_eq_nil_iff]
    exact h
  simp [pyStrip, h1]

/-- C7: `is_target_content` applies exactly the short-circuiting rules of
spec §4.2 in order: empty/whitespace-only text is rejected; any
excluded-range character rejects; stripped length below `min_length`
rejects; a case-insensitive denylist hit rejects; a word count below
`min_word_count` rejects; otherwise the text is accepted — and an empty
string is rejected under every threshold configuration. -/
theorem contentClassifier_decision_order :
    (∀ (cfg : ClassificationThresholds) (text : List Char),
      (∀ c ∈ text, c.isWhitespace = true) → isTargetContent cfg text = false) ∧
    (∀ (cfg : ClassificationThresholds) (text : List Char),
      hasKorean text = true → isTargetContent cfg text = false) ∧
    (∀ (cfg : ClassificationThresholds) (text : List Char),
      (pyStrip text).length < cfg.minLength → isTargetContent cfg text = false) ∧
    (∀ (cfg : ClassificationThresholds) (text : List Char),
      cfg.denylist.any (fun p => pyIn (pyLower p) (pyLower (pyStrip text))) = true →
      isTargetContent cfg text = false) ∧
    (∀ (cfg : ClassificationThresholds) (text : List Char),
      (pyWords (pyStrip text)).length < cfg.minWordCount →
      isTargetContent cfg text = false) ∧
    (∀ (cfg : ClassificationThresholds) (text : List Char),
      pyStrip text ≠ [] →
      hasKorean (pyStrip text) = false →
      ¬(pyStrip text).length < cfg.minLength →
      cfg.denylist.any (fun p => pyIn (pyLower p) (pyLower (pyStrip text))) = false →
      ¬(pyWords (pyStrip text)).length < cfg.minWordCount →
      isTargetContent cfg text = true) ∧
    (∀ cfg : ClassificationThresholds, isTargetContent cfg [] = false) := by
  refine ⟨?_, ?_, ?_, ?_, ?_, ?_, ?_⟩
  · intro cfg text h
    simp [isTargetContent, pyStrip_eq_nil h]
  · intro cfg text h
    exact isTargetContent_false_of_hasKorean cfg h
  · intro cfg text h
    simp only [isTargetContent]
    split_ifs <;> rfl
  · intro cfg text h
    simp only [isTargetContent]
    split_ifs <;> rfl
  · intro cfg text h
    simp only [isTargetContent]
    split_ifs <;> rfl
  · intro cfg text hne hko hlen hdeny hwords
    have hne' : ¬(pyStrip text).isEmpty = true := by simpa using hne
    have hko' : ¬hasKorean (pyStrip text) = true := by simp [hko]
    have hdeny' :
        ¬(cfg.denylist.any fun p => pyIn (pyLower p) (pyLower (pyStrip text))) = true := by
      simp [hdeny]
    simp only [isTargetContent]
    rw [if_neg hne', if_neg hko', if_neg hlen, if_neg hdeny', if_neg hwords]
  · intro cfg
    simp [isTargetContent, pyStrip]

/-- Witness for `contentClassifier_decision_order`: a whitespace-only
text is rejected even under the most permissive thresholds. -/
theorem contentClassifier_decision_order_witness :
    isTargetContent ⟨0, 0, []⟩ "   ".toList = false :=
  contentClassifier_decision_order.1 ⟨0, 0, []⟩ "   ".toList (by decide)

/-- C9: the exported script consists of exactly the transcript segments
overlapping the window (`seg.start <= window.end` and
`seg.end >= window.start`), in their original order. -/
theorem scriptExport_overlap_filter :
    ∀ (segments : List Segment) (startTime endTime : ℚ),
      extractScriptText segments startTime endTime =
        (segments.filter (fun seg =>
          decide (seg.start ≤ endTime) && decide (startTime ≤ seg.endT))).map
          (fun seg => (seg.start, seg.endT, pyStrip seg.text)) := by
  intro segments s e
  induction segments with
  | nil => simp [extractScriptText]
  | cons seg rest ih =>
    by_cases hc : seg.start ≤ e ∧ s ≤ seg.endT
    · simp [extractScriptText, hc, List.filter_cons, hc.1, hc.2, ih]
    · have hb : (decide (seg.start ≤ e) && decide (s ≤ seg.endT)) = false := by
        rw [Bool.and_eq_false_iff]
        by_cases h1 : seg.start ≤ e
        · right
          simp only [decide_eq_false_iff_not]
          exact fun h2 => hc ⟨h1, h2⟩
        · left
          simpa using h1
      simp [extractScriptText, hc, List.filter_cons, hb, ih]

/-- C10: every fixed-duration extractor slices
`[start_ms, min(start_ms + duration_ms, len(audio)))`: the slice end
never exceeds the audio length and the slice is never longer than the
requested duration; concretely, with the anchor at 0 s and a 60-second
audio, the smart fallback slice is `[46000, 60000)`, shorter than its
50-second duration. -/
theorem fixedDuration_clamped :
    (∀ (anchorEnd : ℚ) (audioLenMs : ℤ),
      (fixedSliceMs anchorEnd audioLenMs).2 =
        min ((fixedSliceMs anchorEnd audioLenMs).1 + 50 * 1000) audioLenMs ∧
      (fixedSliceMs anchorEnd audioLenMs).2 ≤ audioLenMs ∧
      (fixedSliceMs anchorEnd audioLenMs).2 - (fixedSliceMs anchorEnd audioLenMs).1 ≤
        50 * 1000) ∧
    (∀ (anchorEnd startOffset : ℚ) (durationSec audioLenMs : ℤ),
      (fastSliceMs anchorEnd startOffset durationSec audioLenMs).2 ≤ audioLenMs ∧
      (fastSliceMs anchorEnd startOffset durationSec audioLenMs).2 -
        (fastSliceMs anchorEnd startOffset durationSec audioLenMs).1 ≤
        durationSec * 1000) ∧
    (∀ (anchorEnd : ℚ) (durationSec audioLenMs : ℤ),
      (simpleSliceMs anchorEnd durationSec audioLenMs).2 ≤ audioLenMs ∧
      (simpleSliceMs anchorEnd durationSec audioLenMs).2 -
        (simpleSliceMs anchorEnd durationSec audioLenMs).1 ≤ durationSec * 1000) ∧
    (fixedSliceMs 0 60000 = (46000, 60000) ∧ (60000 : ℤ) - 46000 < 50 * 1000) := by
  refine ⟨?_, ?_, ?_, ?_, ?_⟩
  · intro a D
    refine ⟨rfl, ?_, ?_⟩ <;> simp [fixedSliceMs, clampedSliceMs] <;> omega
  · intro a o d D
    refine ⟨?_, ?_⟩ <;> simp [fastSliceMs, clampedSliceMs] <;> omega
  · intro a d D
    refine ⟨?_, ?_⟩ <;> simp [simpleSliceMs, clampedSliceMs] <;> omega
  · have hfloor : ⌊((0 : ℚ) + 46) * 1000⌋ = (46000 : ℤ) := by
      rw [show ((0 : ℚ) + 46) * 1000 = ((46000 : ℤ) : ℚ) by norm_num, Int.floor_intCast]
    have hpos : (0 : ℚ) ≤ ((0 : ℚ) + 46) * 1000 := by norm_num
    simp only [fixedSliceMs, clampedSliceMs, pyIntTrunc, if_pos hpos, hfloor,
      Prod.mk.injEq]
    exact ⟨trivial, by omega⟩
  · norm_num

/-! ## Helper lemmas on the tracker loop -/

theorem trackStep_noncontent (anchor : ℚ) (st : TrackState) (seg : Segment)
    (e0 : ℚ) (hne : st.englishStart ≠ none) (hee : st.englishEnd = some e0)
    (hle : st.lastEnd = e0) (hanchor : anchor ≤ seg.start)
    (hcls : isEnglishSegment seg.text = false) :
    trackStep anchor st seg =
      (if seg.start - e0 > (if st.firstFound then (5 : ℚ) else 15)
        then StepResult.stop st
        else StepResult.cont { st with consecutive := 0 }) := by
  have h1 : ¬seg.start < anchor := not_lt.mpr hanchor
  have h2 : ¬(st.englishStart = none ∧ anchor + 60 < seg.start) := fun hc => hne hc.1
  simp only [trackStep]
  rw [if_neg h1, if_neg h2, if_neg (by simp [hcls] : ¬isEnglishSegment seg.text = true)]
  by_cases hff : st.firstFound = true
  · rw [show (if st.firstFound = true then (5 : ℚ) else 15) = 5 from if_pos hff]
    by_cases hgap : seg.start - e0 > 5
    · rw [if_pos ⟨hff, hne, by rw [hle]; exact hgap⟩, if_pos hgap]
    · rw [if_neg (fun hc => hgap (hle ▸ hc.2.2)),
        if_neg (fun hc => by rw [hff] at hc; exact absurd hc.2.1 (by simp)),
        if_neg hgap]
  · have hff' : st.firstFound = false := by
      cases h : st.firstFound
      · rfl
      · exact absurd h hff
    rw [show (if st.firstFound = true then (5 : ℚ) else 15) = 15 from
      if_neg (by simp [hff'])]
    rw [if_neg (fun hc => by rw [hff'] at hc; exact absurd hc.1 (by simp))]
    by_cases hgap : seg.start - e0 > 15
    · rw [if_pos ⟨hne, hff', by rw [hle]; exact hgap⟩, if_pos hgap]
    · rw [if_neg (fun hc => hgap (hle ▸ hc.2.2)), if_neg hgap]

theorem trackStep_content (anchor : ℚ) (st : TrackState) (seg : Segment)
    (s0 : ℚ) (hes : st.englishStart = some s0) (hanchor : anchor ≤ seg.start)
    (hcls : isEnglishSegment seg.text = true) :
    trackStep anchor st seg = StepResult.cont
      { englishStart := some s0
        englishEnd := some seg.endT
        lastEnd := seg.endT
        consecutive := st.consecutive + 1
        firstFound := st.firstFound || decide (3 ≤ st.consecutive + 1) } := by
  have h1 : ¬seg.start < anchor := not_lt.mpr hanchor
  have h2 : ¬(st.englishStart = none ∧ anchor + 60 < seg.start) := by
    intro hc
    rw [hes] at hc
    exact absurd hc.1 (by simp)
  simp only [trackStep]
  rw [if_neg h1, if_neg h2, if_pos hcls]
  simp only [hes]

/-- C4: while `IN_CONTENT` (a window is recorded and
`window.end = last_end_time = e0`), a non-content segment is judged by
`gap = segment.start - window.end`: the loop breaks when the gap exceeds
5 s if the confirmed-run latch is set, else 15 s; within tolerance it
stays without touching the window and resets the consecutive counter.  A
content segment extends `window.end = segment.end`, increments the
counter, and sets the latch exactly when the counter reaches 3 (the
latch is never cleared). -/
theorem boundaryTracker_dual_gap :
    (∀ (anchor : ℚ) (st : TrackState) (seg : Segment) (e0 : ℚ),
      st.englishStart ≠ none → st.englishEnd = some e0 → st.lastEnd = e0 →
      anchor ≤ seg.start → isEnglishSegment seg.text = false →
      trackStep anchor st seg =
        (if seg.start - e0 > (if st.firstFound then (5 : ℚ) else 15)
          then StepResult.stop st
          else StepResult.cont { st with consecutive := 0 })) ∧
    (∀ (anchor : ℚ) (st : TrackState) (seg : Segment) (s0 : ℚ),
      st.englishStart = some s0 → anchor ≤ seg.start →
      isEnglishSegment seg.text = true →
      trackStep anchor st seg = StepResult.cont
        { englishStart := some s0
          englishEnd := some seg.endT
          lastEnd := seg.endT
          consecutive := st.consecutive + 1
          firstFound := st.firstFound || decide (3 ≤ st.consecutive + 1) }) :=
  ⟨fun anchor st seg e0 hne hee hle hanchor hcls =>
      trackStep_noncontent anchor st seg e0 hne hee hle hanchor hcls,
    fun anchor st seg s0 hes hanchor hcls =>
      trackStep_content anchor st seg s0 hes hanchor hcls⟩

/-- Witness for `boundaryTracker_dual_gap`: a short noise segment 25 s
after the recorded end, before any confirmed run, ends the window. -/
theorem boundaryTracker_dual_gap_witness :
    trackStep 0 ⟨some 1, some 5, 5, 1, false⟩ ⟨30, 33, cexTextShort⟩ =
      StepResult.stop ⟨some 1, some 5, 5, 1, false⟩ := by
  have h := boundaryTracker_dual_gap.1 0 ⟨some 1, some 5, 5, 1, false⟩
    ⟨30, 33, cexTextShort⟩ 5 (by simp) rfl rfl (by norm_num) (by decide)
  rw [h]
  norm_num

/-- C1 counterexample: the anchor is at 0; the tracker is in content
after an English segment ending at 5; the next segment contains Hangul
(an excluded-range character) with a 1-second gap.  The claim demands an
immediate transition to `ENDED` with `window.end = 5` and no further
extension, but the loop of src/smart_extract.py lines 293-311 only
checks the gap, keeps scanning, and the final English segment extends
the window end to 13. -/
theorem koreanSignal_counterexample :
    boundaryTrack 0
      [⟨1, 5, cexTextEn1⟩, ⟨6, 8, cexTextKo⟩, ⟨9, 13, cexTextEn2⟩] =
      some (1, 13) ∧
    hasKorean cexTextKo = true ∧
    isEnglishSegment cexTextKo = false ∧
    ((1 : ℚ), (13 : ℚ)) ≠ ((1 : ℚ), (5 : ℚ)) := by
  have h1 : isEnglishSegment cexTextEn1 = true := by decide
  have h2 : isEnglishSegment cexTextKo = false := by decide
  have h3 : isEnglishSegment cexTextEn2 = true := by decide
  refine ⟨?_, by decide, h2, by norm_num⟩
  norm_num [boundaryTrack, runTracker, trackStep, initState, h1, h2, h3]

/-- C1 (amended): while `IN_CONTENT`, a non-content segment whose text
contains an excluded-range character is treated like every other
non-content segment — the tracker ends only when the gap
`segment.start - window.end` exceeds the applicable threshold (5 s once
the confirmed-run latch is set, 15 s before), otherwise it stays in
content with the window untouched and the counter reset — and a
subsequent content segment then extends `window.end` further. -/
theorem koreanSignal_gap_rule :
    (∀ (anchor : ℚ) (st : TrackState) (seg : Segment) (e0 : ℚ),
      st.englishStart ≠ none → st.englishEnd = some e0 → st.lastEnd = e0 →
      anchor ≤ seg.start → hasKorean seg.text = true →
      trackStep anchor st seg =
        (if seg.start - e0 > (if st.firstFound then (5 : ℚ) else 15)
          then StepResult.stop st
          else StepResult.cont { st with consecutive := 0 })) ∧
    (∀ (anchor : ℚ) (st : TrackState) (seg : Segment) (s0 : ℚ),
      st.englishStart = some s0 → anchor ≤ seg.start →
      isEnglishSegment seg.text = true →
      ∃ st', trackStep anchor st seg = StepResult.cont st' ∧
        st'.englishEnd = some seg.endT) := by
  constructor
  · intro anchor st seg e0 hne hee hle hanchor hko
    exact trackStep_noncontent anchor st seg e0 hne hee hle hanchor
      (isTargetContent_false_of_hasKorean defaultThresholds hko)
  · intro anchor st seg s0 hes hanchor hcls
    exact ⟨_, trackStep_content anchor st seg s0 hes hanchor hcls, rfl⟩

/-- Witness for `koreanSignal_gap_rule`: the Hangul segment at a
1-second gap leaves the tracker in content with the window untouched. -/
theorem koreanSignal_gap_rule_witness :
    trackStep 0 ⟨some 1, some 5, 5, 1, false⟩ ⟨6, 8, cexTextKo⟩ =
      StepResult.cont ⟨some 1, some 5, 5, 0, false⟩ := by
  have h := koreanSignal_gap_rule.1 0 ⟨some 1, some 5, 5, 1, false⟩
    ⟨6, 8, cexTextKo⟩ 5 (by simp) rfl rfl (by norm_num) (by decide)
  rw [h]
  norm_num

theorem runTracker_no_content (anchor : ℚ) :
    ∀ (segs : List Segment) (st : TrackState),
      st.englishStart = none → st.englishEnd = none →
      (∀ seg ∈ segs, anchor ≤ seg.start → seg.start ≤ anchor + 60 →
        isEnglishSegment seg.text = false) →
      (runTracker anchor st segs).englishStart = none ∧
      (runTracker anchor st segs).englishEnd = none := by
  intro segs
  induction segs with
  | nil =>
    intro st h1 h2 _
    exact ⟨h1, h2⟩
  | cons seg rest ih =>
    intro st h1 h2 hall
    simp only [runTracker]
    by_cases hs : seg.start < anchor
    · rw [show trackStep anchor st seg = StepResult.cont st from by
        simp [trackStep, hs]]
      exact ih st h1 h2 (fun s hs' => hall s (List.mem_cons_of_mem _ hs'))
    · by_cases ht : anchor + 60 < seg.start
      · rw [show trackStep anchor st seg = StepResult.stop st from by
          simp only [trackStep]
          rw [if_neg hs, if_pos ⟨h1, ht⟩]]
        exact ⟨h1, h2⟩
      · have hcls : isEnglishSegment seg.text = false :=
          hall seg (List.mem_cons_self _ _) (not_lt.1 hs) (not_lt.1 ht)
        have hstep : trackStep anchor st seg =
            StepResult.cont { st with consecutive := 0 } := by
          simp only [trackStep]
          rw [if_neg hs, if_neg (fun hc => ht hc.2),
            if_neg (by simp [hcls] : ¬isEnglishSegment seg.text = true),
            if_neg (fun hc => hc.2.1 h1), if_neg (fun hc => hc.1 h1)]
        rw [hstep]
        exact ih _ (by simp [h1]) (by simp [h2])
          (fun s hs' => hall s (List.mem_cons_of_mem _ hs'))

/-- C3: when no segment at or after the anchor and within the 60-second
timeout classifies as content, the tracker records no window at all
(never a zero-length one), and `_extract_fixed` would compute the fixed
window `(anchor + 46, anchor + 46 + 50)` — but the live call at
src/smart_extract.py line 317 passes the undefined name `result`, so the
run raises `NameError` instead of completing. -/
theorem timeout_fallback_outcome :
    ∀ (anchor : ℚ) (segs : List Segment),
      (∀ seg ∈ segs, anchor ≤ seg.start → seg.start ≤ anchor + 60 →
        isEnglishSegment seg.text = false) →
      boundaryTrack anchor segs = none ∧
      smartExtractOutcome anchor segs =
        Except.error "NameError: name result is not defined" ∧
      extractFixedWindow anchor = (anchor + 46, anchor + 46 + 50) := by
  intro anchor segs hall
  have h := runTracker_no_content anchor segs (initState anchor) rfl rfl hall
  have hbt : boundaryTrack anchor segs = none := by
    simp only [boundaryTrack]
    rw [h.1, h.2]
  refine ⟨hbt, ?_, rfl⟩
  simp only [smartExtractOutcome]
  rw [hbt]

/-- Witness for `timeout_fallback_outcome`: a Korean segment inside the
timeout window and an English one long after it leave the tracker
without a window, and the pipeline tail errors out. -/
theorem timeout_fallback_outcome_witness :
    smartExtractOutcome 0 [⟨10, 12, cexTextKo⟩, ⟨100, 104, cexTextEn1⟩] =
      Except.error "NameError: name result is not defined" := by
  have h := timeout_fallback_outcome 0 [⟨10, 12, cexTextKo⟩, ⟨100, 104, cexTextEn1⟩] ?_
  · exact h.2.1
  · intro seg hseg
    simp only [List.mem_cons, List.not_mem_nil, or_false] at hseg
    rcases hseg with rfl | rfl
    · intro _ _
      decide
    · intro _ h2
      norm_num at h2

/-! ## Helper lemmas on the anchor search -/

theorem smartPass1_eq (phrases : List (List Char)) :
    ∀ segs : List Segment, (∀ seg ∈ segs, seg.endT ≠ 0) →
      smartPass1 phrases none segs = specPass1 segs phrases := by
  intro segs
  induction segs with
  | nil => intro _; simp [smartPass1, specPass1]
  | cons seg rest ih =>
    intro hends
    have hrest : ∀ s ∈ rest, s.endT ≠ 0 :=
      fun s hs => hends s (List.mem_cons_of_mem _ hs)
    by_cases hhit : anchorHit phrases seg = true
    · have hne : seg.endT ≠ 0 := hends seg (List.mem_cons_self _ _)
      have htr : pyTruthy (some seg.endT) = true := by simp [pyTruthy, hne]
      simp only [smartPass1, hhit, if_true, htr, specPass1,
        List.find?_cons_of_pos _ hhit]
      rfl
    · have hhit' : anchorHit phrases seg = false := by
        cases h : anchorHit phrases seg
        · rfl
        · exact absurd h hhit
      simp only [smartPass1, hhit', Bool.false_eq_true, if_false, pyTruthy,
        specPass1, List.find?_cons_of_neg _ hhit]
      rw [show specPass1 rest phrases =
          Option.map (fun x => x.endT) (List.find? (anchorHit phrases) rest) from rfl]
        at ih
      exact ih hrest

theorem smartPass2_eq (phrases : List (List Char)) :
    ∀ segs : List Segment, (∀ seg ∈ segs, seg.endT ≠ 0) →
      smartPass2 phrases none segs = specPass2 phrases segs := by
  intro segs
  induction segs with
  | nil => intro _; simp [smartPass2, specPass2]
  | cons s1 rest ih =>
    intro hends
    match rest, ih with
    | [], _ => simp [smartPass2, specPass2]
    | [s2], _ => simp [smartPass2, specPass2]
    | s2 :: s3 :: rest3, ih =>
      have hrest : ∀ s ∈ s2 :: s3 :: rest3, s.endT ≠ 0 :=
        fun s hs => hends s (List.mem_cons_of_mem _ hs)
      by_cases hhit : mergedHit phrases s1 s2 s3 = true
      · have hne : s3.endT ≠ 0 :=
          hends s3 (by simp)
        have htr : pyTruthy (some s3.endT) = true := by simp [pyTruthy, hne]
        simp only [smartPass2, hhit, if_true, htr, specPass2]
      · have hhit' : mergedHit phrases s1 s2 s3 = false := by
          cases h : mergedHit phrases s1 s2 s3
          · rfl
          · exact absurd h hhit
        simp only [smartPass2, hhit', Bool.false_eq_true, if_false, pyTruthy,
          specPass2]
        exact ih hrest

/-- C5 counterexample: the first segment's text contains the phrase, but
its end time is `0.0`; the source's `if anchor_end_time:` truthiness
test does not stop the scan there, and the match on the second segment
wins — pass 1 does look ahead past a matching segment, contradicting the
claim that the first matching segment yields the anchor. -/
theorem anchorLocator_firstMatch_counterexample :
    smartFindAnchor [⟨1, 0, ['x', 'a', 'b', 'x']⟩, ⟨2, 7, ['a', 'b']⟩]
      [['a', 'b']] = some 7 ∧
    anchorHit [['a', 'b']] ⟨1, 0, ['x', 'a', 'b', 'x']⟩ = true ∧
    (7 : ℚ) ≠ 0 := by
  refine ⟨?_, by decide, by norm_num⟩
  have h1 : anchorHit [['a', 'b']] ⟨1, 0, ['x', 'a', 'b', 'x']⟩ = true := by decide
  have h2 : anchorHit [['a', 'b']] ⟨2, 7, ['a', 'b']⟩ = true := by decide
  norm_num [smartFindAnchor, smartPass1, smartPass2, h1, h2, pyTruthy]

/-- C5 (amended): provided every segment's end time is nonzero, the
anchor search is exactly the spec's two-pass structure — pass 1 returns
the first segment whose stripped text contains a phrase, with no
look-ahead, and pass 2 runs only when pass 1 finds nothing, returning
the first three-segment window whose concatenated text contains a
phrase, anchored at the third segment's end. -/
theorem anchorLocator_two_pass (segments : List Segment)
    (phrases : List (List Char)) (hends : ∀ seg ∈ segments, seg.endT ≠ 0) :
    smartFindAnchor segments phrases = specLocate segments phrases := by
  unfold smartFindAnchor specLocate
  rw [smartPass1_eq phrases segments hends, smartPass2_eq phrases segments hends]
  cases specPass1 segments phrases <;> rfl

/-- Witness for `anchorLocator_two_pass` at a one-segment transcript
with a nonzero end time. -/
theorem anchorLocator_two_pass_witness :
    smartFindAnchor [⟨1, 4, "say ab now please".toList⟩] [['a', 'b']] =
      specLocate [⟨1, 4, "say ab now please".toList⟩] [['a', 'b']] :=
  anchorLocator_two_pass _ _ (by
    intro seg hseg
    simp only [List.mem_cons, List.not_mem_nil, or_false] at hseg
    subst hseg
    norm_num)

theorem fastPass1_eq (searchFrom : ℚ) (phrases : List (List Char)) :
    ∀ segs : List Segment, (∀ seg ∈ segs, seg.endT ≠ 0) →
      fastPass1 searchFrom phrases none segs =
        specFastPass1 searchFrom phrases segs := by
  intro segs
  induction segs with
  | nil => intro _; simp [fastPass1, specFastPass1]
  | cons seg rest ih =>
    intro hends
    have hrest : ∀ s ∈ rest, s.endT ≠ 0 :=
      fun s hs => hends s (List.mem_cons_of_mem _ hs)
    by_cases hq : searchFrom ≤ seg.start
    · by_cases hhit : anchorHit phrases seg = true
      · have hne : seg.endT ≠ 0 := hends seg (List.mem_cons_self _ _)
        have htr : pyTruthy (some seg.endT) = true := by simp [pyTruthy, hne]
        have hcond : searchFrom ≤ seg.start ∧ anchorHit phrases seg = true :=
          ⟨hq, hhit⟩
        rw [show specFastPass1 searchFrom phrases (seg :: rest) =
            some seg.endT from by
          simp only [specFastPass1, if_pos hcond]]
        simp only [fastPass1, if_pos hq, hhit, if_true, htr]
      · have hhit' : anchorHit phrases seg = false := by
          cases h : anchorHit phrases seg
          · rfl
          · exact absurd h hhit
        have hcond : ¬(searchFrom ≤ seg.start ∧ anchorHit phrases seg = true) :=
          fun hc => hhit hc.2
        rw [show specFastPass1 searchFrom phrases (seg :: rest) =
            specFastPass1 searchFrom phrases rest from by
          simp only [specFastPass1, if_neg hcond]]
        simp only [fastPass1, if_pos hq, hhit', Bool.false_eq_true, if_false,
          pyTruthy]
        exact ih hrest
    · have hcond : ¬(searchFrom ≤ seg.start ∧ anchorHit phrases seg = true) :=
        fun hc => hq hc.1
      rw [show specFastPass1 searchFrom phrases (seg :: rest) =
          specFastPass1 searchFrom phrases rest from by
        simp only [specFastPass1, if_neg hcond]]
      simp only [fastPass1, if_neg hq]
      exact ih hrest

theorem fastPass2_eq (searchFrom : ℚ) (phrases : List (List Char)) :
    ∀ segs : List Segment, (∀ seg ∈ segs, seg.endT ≠ 0) →
      fastPass2 searchFrom phrases none segs =
        specFastPass2 searchFrom phrases segs := by
  intro segs
  induction segs with
  | nil => intro _; simp [fastPass2, specFastPass2]
  | cons s1 rest ih =>
    intro hends
    match rest, ih with
    | [], _ => simp [fastPass2, specFastPass2]
    | [s2], _ => simp [fastPass2, specFastPass2]
    | s2 :: s3 :: rest3, ih =>
      have hrest : ∀ s ∈ s2 :: s3 :: rest3, s.endT ≠ 0 :=
        fun s hs => hends s (List.mem_cons_of_mem _ hs)
      by_cases hq : searchFrom ≤ s1.start
      · by_cases hhit : mergedHit phrases s1 s2 s3 = true
        · have hne : s3.endT ≠ 0 := hends s3 (by simp)
          have htr : pyTruthy (some s3.endT) = true := by simp [pyTruthy, hne]
          have hcond : searchFrom ≤ s1.start ∧ mergedHit phrases s1 s2 s3 = true :=
            ⟨hq, hhit⟩
          rw [show specFastPass2 searchFrom phrases (s1 :: s2 :: s3 :: rest3) =
              some s3.endT from by
            simp only [specFastPass2, if_pos hcond]]
          simp only [fastPass2, if_pos hq, hhit, if_true, htr]
        · have hhit' : mergedHit phrases s1 s2 s3 = false := by
            cases h : mergedHit phrases s1 s2 s3
            · rfl
            · exact absurd h hhit
          have hcond : ¬(searchFrom ≤ s1.start ∧ mergedHit phrases s1 s2 s3 = true) :=
            fun hc => hhit hc.2
          rw [show specFastPass2 searchFrom phrases (s1 :: s2 :: s3 :: rest3) =
              specFastPass2 searchFrom phrases (s2 :: s3 :: rest3) from by
            simp only [specFastPass2, if_neg hcond]]
          simp only [fastPass2, if_pos hq, hhit', Bool.false_eq_true, if_false,
            pyTruthy]
          exact ih hrest
      · have hcond : ¬(searchFrom ≤ s1.start ∧ mergedHit phrases s1 s2 s3 = true) :=
          fun hc => hq hc.1
        rw [show specFastPass2 searchFrom phrases (s1 :: s2 :: s3 :: rest3) =
            specFastPass2 searchFrom phrases (s2 :: s3 :: rest3) from by
          simp only [specFastPass2, if_neg hcond]]
        simp only [fastPass2, if_neg hq]
        exact ih hrest

/-- C6 counterexample: both occurrences qualify (`start >= search_from`),
the earlier qualifying match has end time `0.0`, and the truthiness test
`if anchor_end_time:` lets the scan continue, so the locator returns the
later occurrence's end `7` instead of the earliest qualifying segment's
end `0`. -/
theorem anchorLocator_searchFrom_counterexample :
    fastFindAnchor 5 [⟨5, 0, ['x', 'a', 'b', 'x']⟩, ⟨6, 7, ['a', 'b']⟩]
      [['a', 'b']] = some 7 ∧
    (5 : ℚ) ≤ 5 ∧
    anchorHit [['a', 'b']] ⟨5, 0, ['x', 'a', 'b', 'x']⟩ = true ∧
    (7 : ℚ) ≠ 0 := by
  refine ⟨?_, by norm_num, by decide, by norm_num⟩
  have h1 : anchorHit [['a', 'b']] ⟨5, 0, ['x', 'a', 'b', 'x']⟩ = true := by decide
  have h2 : anchorHit [['a', 'b']] ⟨6, 7, ['a', 'b']⟩ = true := by decide
  norm_num [fastFindAnchor, fastPass1, fastPass2, h1, h2, pyTruthy]

/-- C6 (amended): provided every segment's end time is nonzero, only
segments at or after `search_from` are examined and the locator equals
the spec model — pass 1 returns the earliest qualifying match (the first
segment in stream order with `start >= search_from` whose text contains
a phrase), and the three-segment fallback runs only when pass 1 fails,
over windows whose first segment qualifies; in particular, with the
phrase occurring once before `search_from` and once at or after it, the
later occurrence's end time is returned. -/
theorem anchorLocator_search_from :
    (∀ (searchFrom : ℚ) (segments : List Segment) (phrases : List (List Char)),
      (∀ seg ∈ segments, seg.endT ≠ 0) →
      fastFindAnchor searchFrom segments phrases =
        specFastLocate searchFrom segments phrases) ∧
    (∀ (searchFrom : ℚ) (a b : Segment) (phrases : List (List Char)),
      a.start < searchFrom → searchFrom ≤ b.start → b.endT ≠ 0 →
      anchorHit phrases a = true → anchorHit phrases b = true →
      fastFindAnchor searchFrom [a, b] phrases = some b.endT) := by
  constructor
  · intro searchFrom segments phrases hends
    unfold fastFindAnchor specFastLocate
    rw [fastPass1_eq searchFrom phrases segments hends,
      fastPass2_eq searchFrom phrases segments hends]
    cases specFastPass1 searchFrom phrases segments <;> rfl
  · intro searchFrom a b phrases ha hb hbne hhita hhitb
    have ha' : ¬searchFrom ≤ a.start := not_le.mpr ha
    have htr : pyTruthy (some b.endT) = true := by simp [pyTruthy, hbne]
    simp only [fastFindAnchor, fastPass1, if_neg ha', if_pos hb, hhitb,
      if_true, htr]

/-- Witness for `anchorLocator_search_from`: the phrase occurs before and
after `search_from = 5`; the locator returns the later occurrence's
end. -/
theorem anchorLocator_search_from_witness :
    fastFindAnchor 5 [⟨1, 2, ['x', 'a', 'b', 'x']⟩, ⟨6, 7, ['x', 'a', 'b', 'x']⟩]
      [['a', 'b']] = some 7 := by
  have h := anchorLocator_search_from.2 5 ⟨1, 2, ['x', 'a', 'b', 'x']⟩
    ⟨6, 7, ['x', 'a', 'b', 'x']⟩ [['a', 'b']]
    (by norm_num) (by norm_num) (by norm_num) (by decide) (by decide)
  exact h

/-! ## Helper lemmas on the refiner -/

theorem latestEnd_eq_none :
    ∀ ls : List LabeledInterval, latestEnd ls = none ↔ ls = [] := by
  intro ls
  cases ls with
  | nil => simp [latestEnd]
  | cons l rest =>
    simp only [latestEnd]
    cases latestEnd rest <;> simp

theorem latestEnd_spec :
    ∀ (ls : List LabeledInterval) (m : ℚ), latestEnd ls = some m →
      (∃ l ∈ ls, l.endT = m) ∧ ∀ l ∈ ls, l.endT ≤ m := by
  intro ls
  induction ls with
  | nil => intro m hm; simp [latestEnd] at hm
  | cons l rest ih =>
    intro m hm
    simp only [latestEnd] at hm
    cases hrest : latestEnd rest with
    | none =>
      rw [hrest] at hm
      have hnil : rest = [] := (latestEnd_eq_none rest).1 hrest
      subst hnil
      simp only [Option.some.injEq] at hm
      subst hm
      exact ⟨⟨l, by simp⟩, by simp⟩
    | some m' =>
      rw [hrest] at hm
      simp only [Option.some.injEq] at hm
      subst hm
      obtain ⟨⟨w, hwmem, hwend⟩, hall⟩ := ih m' hrest
      constructor
      · rcases le_total l.endT m' with hle | hle
        · exact ⟨w, List.mem_cons_of_mem _ hwmem, by rw [hwend, max_eq_right hle]⟩
        · exact ⟨l, List.mem_cons_self _ _, by rw [max_eq_left hle]⟩
      · intro x hx
        rcases List.mem_cons.1 hx with rfl | hx'
        · exact le_max_left _ _
        · exact le_trans (hall x hx') (le_max_right _ _)

/-- C2: modelled from the spec (no acceptance-band refiner exists under
src/) — `refine` selects among Music intervals with
`start < window.end + 2` the latest end as `candidate_end` and replaces
`window.end` exactly when `-10 < candidate_end - window.end < 5`; it is
the identity on an empty label sequence; a music interval ending 2 s
after `window.end` extends the window to that end; one ending 30 s after
leaves the window unchanged. -/
theorem audioLabelRefiner_band :
    (∀ (w : ℚ × ℚ) (labels : List LabeledInterval),
      candidateEnd w.2 labels = none → refine w labels = w) ∧
    (∀ (w : ℚ × ℚ) (labels : List LabeledInterval) (ce : ℚ),
      candidateEnd w.2 labels = some ce →
      -10 < ce - w.2 → ce - w.2 < 5 → refine w labels = (w.1, ce)) ∧
    (∀ (w : ℚ × ℚ) (labels : List LabeledInterval) (ce : ℚ),
      candidateEnd w.2 labels = some ce →
      ¬(-10 < ce - w.2 ∧ ce - w.2 < 5) → refine w labels = w) ∧
    (∀ (w : ℚ × ℚ) (labels : List LabeledInterval) (ce : ℚ),
      candidateEnd w.2 labels = some ce →
      (∃ l ∈ labels, l.label = "music" ∧ l.start < w.2 + 2 ∧ l.endT = ce) ∧
      (∀ l ∈ labels, l.label = "music" → l.start < w.2 + 2 → l.endT ≤ ce)) ∧
    (∀ w : ℚ × ℚ, refine w [] = w) ∧
    refine (0, 100) [⟨"music", 95, 102⟩] = (0, 102) ∧
    refine (0, 100) [⟨"music", 95, 130⟩] = (0, 100) := by
  refine ⟨?_, ?_, ?_, ?_, ?_, ?_, ?_⟩
  · intro w labels h
    simp [refine, h]
  · intro w labels ce h h1 h2
    simp [refine, h, h1, h2]
  · intro w labels ce h hband
    simp only [refine, h]
    rw [if_neg (fun hc => hband hc)]
  · intro w labels ce h
    obtain ⟨⟨l, hlmem, hlend⟩, hall⟩ := latestEnd_spec _ ce h
    have hmem := List.mem_filter.1 hlmem
    have hprops : l.label = "music" ∧ l.start < w.2 + 2 := by
      have := hmem.2
      simp only [Bool.and_eq_true, beq_iff_eq, decide_eq_true_eq] at this
      exact this
    constructor
    · exact ⟨l, hmem.1, hprops.1, hprops.2, hlend⟩
    · intro x hx hxl hxs
      apply hall
      apply List.mem_filter.2
      refine ⟨hx, ?_⟩
      simp only [Bool.and_eq_true, beq_iff_eq, decide_eq_true_eq]
      exact ⟨hxl, hxs⟩
  · intro w
    simp [refine, candidateEnd, musicCandidates, latestEnd]
  · norm_num [refine, candidateEnd, musicCandidates, latestEnd]
  · norm_num [refine, candidateEnd, musicCandidates, latestEnd]

/-- Witness for `audioLabelRefiner_band`: a music interval ending 1 s
after the provisional end (diff inside the acceptance band) moves the
window end to 51. -/
theorem audioLabelRefiner_band_witness :
    refine (5, 50) [⟨"music", 40, 51⟩] = (5, 51) := by
  have h := audioLabelRefiner_band.2.1 (5, 50) [⟨"music", 40, 51⟩] 51 ?_
    (by norm_num) (by norm_num)
  · exact h
  · norm_num [candidateEnd, musicCandidates, latestEnd]

/-! ## Window well-formedness invariants -/

theorem runTracker_window_wf (anchor : ℚ) :
    ∀ (segs : List Segment) (st : TrackState),
      (∀ seg ∈ segs, seg.start ≤ seg.endT) →
      segs.Pairwise (fun a b => a.start ≤ b.start) →
      ((st.englishStart = none ∧ st.englishEnd = none) ∨
        (∃ s e, st.englishStart = some s ∧ st.englishEnd = some e ∧ s ≤ e ∧
          ∀ seg ∈ segs, s ≤ seg.start)) →
      ((runTracker anchor st segs).englishStart = none ∧
        (runTracker anchor st segs).englishEnd = none) ∨
      (∃ s e, (runTracker anchor st segs).englishStart = some s ∧
        (runTracker anchor st segs).englishEnd = some e ∧ s ≤ e) := by
  intro segs
  induction segs with
  | nil =>
    intro st _ _ hinv
    simp only [runTracker]
    rcases hinv with ⟨h1, h2⟩ | ⟨s, e, h1, h2, h3, _⟩
    · exact Or.inl ⟨h1, h2⟩
    · exact Or.inr ⟨s, e, h1, h2, h3⟩
  | cons seg rest ih =>
    intro st hwf hpw hinv
    have hwf' : ∀ s ∈ rest, s.start ≤ s.endT :=
      fun s hs => hwf s (List.mem_cons_of_mem _ hs)
    have hpw' : rest.Pairwise (fun a b => a.start ≤ b.start) :=
      (List.pairwise_cons.1 hpw).2
    have hhead : ∀ b ∈ rest, seg.start ≤ b.start := (List.pairwise_cons.1 hpw).1
    have hstop : ((st.englishStart = none ∧ st.englishEnd = none) ∨
        (∃ s e, st.englishStart = some s ∧ st.englishEnd = some e ∧ s ≤ e)) := by
      rcases hinv with ⟨h1, h2⟩ | ⟨s, e, h1, h2, h3, _⟩
      · exact Or.inl ⟨h1, h2⟩
      · exact Or.inr ⟨s, e, h1, h2, h3⟩
    simp only [runTracker]
    by_cases hs : seg.start < anchor
    · rw [show trackStep anchor st seg = StepResult.cont st from by
        simp [trackStep, hs]]
      apply ih st hwf' hpw'
      rcases hinv with h | ⟨s, e, h1, h2, h3, h4⟩
      · exact Or.inl h
      · exact Or.inr ⟨s, e, h1, h2, h3,
          fun x hx => h4 x (List.mem_cons_of_mem _ hx)⟩
    · by_cases hc : st.englishStart = none ∧ anchor + 60 < seg.start
      · rw [show trackStep anchor st seg = StepResult.stop st from by
          simp only [trackStep]
          rw [if_neg hs, if_pos hc]]
        rcases hstop with h | h
        · exact Or.inl h
        · exact Or.inr h
      · by_cases hcls : isEnglishSegment seg.text = true
        · rcases hinv with ⟨h1, _⟩ | ⟨s, e, h1, h2, h3, h4⟩
          · rw [show trackStep anchor st seg = StepResult.cont
                { englishStart := some seg.start
                  englishEnd := some seg.endT
                  lastEnd := seg.endT
                  consecutive := st.consecutive + 1
                  firstFound := st.firstFound || decide (3 ≤ st.consecutive + 1) }
                from by
              simp only [trackStep]
              rw [if_neg hs, if_neg hc, if_pos hcls]
              simp only [h1]]
            apply ih _ hwf' hpw'
            exact Or.inr ⟨seg.start, seg.endT, rfl, rfl,
              hwf seg (List.mem_cons_self _ _), hhead⟩
          · rw [trackStep_content anchor st seg s h1 (not_lt.1 hs) hcls]
            apply ih _ hwf' hpw'
            refine Or.inr ⟨s, seg.endT, rfl, rfl, ?_, ?_⟩
            · exact le_trans (h4 seg (List.mem_cons_self _ _))
                (hwf seg (List.mem_cons_self _ _))
            · exact fun x hx => h4 x (List.mem_cons_of_mem _ hx)
        · by_cases hc4 : st.firstFound = true ∧ st.englishStart ≠ none ∧
              5 < seg.start - st.lastEnd
          · rw [show trackStep anchor st seg = StepResult.stop st from by
              simp only [trackStep]
              rw [if_neg hs, if_neg hc, if_neg (by simp [hcls]), if_pos hc4]]
            rcases hstop with h | h
            · exact Or.inl h
            · exact Or.inr h
          · by_cases hc5 : st.englishStart ≠ none ∧ st.firstFound = false ∧
                15 < seg.start - st.lastEnd
            · rw [show trackStep anchor st seg = StepResult.stop st from by
                simp only [trackStep]
                rw [if_neg hs, if_neg hc, if_neg (by simp [hcls]), if_neg hc4,
                  if_pos hc5]]
              rcases hstop with h | h
              · exact Or.inl h
              · exact Or.inr h
            · rw [show trackStep anchor st seg =
                  StepResult.cont { st with consecutive := 0 } from by
                simp only [trackStep]
                rw [if_neg hs, if_neg hc, if_neg (by simp [hcls]), if_neg hc4,
                  if_neg hc5]]
              apply ih _ hwf' hpw'
              rcases hinv with ⟨h1, h2⟩ | ⟨s, e, h1, h2, h3, h4⟩
              · exact Or.inl ⟨by simp [h1], by simp [h2]⟩
              · exact Or.inr ⟨s, e, by simp [h1], by simp [h2], h3,
                  fun x hx => h4 x (List.mem_cons_of_mem _ hx)⟩

theorem musicScan_wf :
    ∀ (ivs : List LabeledInterval) (st : MusicState),
      (∀ l ∈ ivs, l.start ≤ l.endT) →
      ivs.Pairwise (fun a b => a.start ≤ b.start) →
      ((st.looking = true ∧ st.exStart = st.exEnd) ∨
        (st.exStart ≤ st.exEnd ∧ ∀ l ∈ ivs, st.exStart ≤ l.start)) →
      (musicScan st ivs).1 ≤ (musicScan st ivs).2 := by
  intro ivs
  induction ivs with
  | nil =>
    intro st _ _ hinv
    simp only [musicScan]
    rcases hinv with ⟨_, h2⟩ | ⟨h1, _⟩
    · exact le_of_eq h2
    · exact h1
  | cons iv rest ih =>
    intro st hwf hpw hinv
    have hwf' : ∀ l ∈ rest, l.start ≤ l.endT :=
      fun l hl => hwf l (List.mem_cons_of_mem _ hl)
    have hpw' : rest.Pairwise (fun a b => a.start ≤ b.start) :=
      (List.pairwise_cons.1 hpw).2
    have hhead : ∀ b ∈ rest, iv.start ≤ b.start := (List.pairwise_cons.1 hpw).1
    have hbreak : st.exStart ≤ st.exEnd := by
      rcases hinv with ⟨_, h2⟩ | ⟨h1, _⟩
      · exact le_of_eq h2
      · exact h1
    simp only [musicScan]
    by_cases hcont : isContentLabel iv.label = true
    · rw [if_pos hcont]
      apply ih _ hwf' hpw'
      by_cases hlook : st.looking = true
      · rw [if_pos hlook]
        exact Or.inr ⟨hwf iv (List.mem_cons_self _ _), hhead⟩
      · rw [if_neg hlook]
        rcases hinv with ⟨h1, _⟩ | ⟨_, hall⟩
        · exact absurd h1 hlook
        · exact Or.inr
            ⟨le_trans (hall iv (List.mem_cons_self _ _))
              (hwf iv (List.mem_cons_self _ _)),
             fun x hx => le_trans (hall iv (List.mem_cons_self _ _))
               (hhead x hx)⟩
    · rw [if_neg hcont]
      by_cases hne : (iv.label == "noEnergy") = true
      · rw [if_pos hne]
        by_cases hbr : st.looking = false ∧ 2 < iv.endT - iv.start
        · rw [if_pos hbr]
          exact hbreak
        · rw [if_neg hbr]
          apply ih _ hwf' hpw'
          rcases hinv with h | ⟨h1, hall⟩
          · exact Or.inl h
          · exact Or.inr ⟨h1, fun x hx => hall x (List.mem_cons_of_mem _ hx)⟩
      · rw [if_neg hne]
        by_cases hlf : st.looking = false
        · rw [if_pos hlf]
          exact hbreak
        · rw [if_neg hlf]
          apply ih _ hwf' hpw'
          rcases hinv with h | ⟨h1, hall⟩
          · exact Or.inl h
          · exact Or.inr ⟨h1, fun x hx => hall x (List.mem_cons_of_mem _ hx)⟩

/-- C8 counterexample: with the anchor at 10 s and a single labeled
interval `(noEnergy, 12, 20)` starting after the anchor, the
music-segment path of src/batch_extract_conversation.py returns the
window `(10, 10)` — `end = start`, a zero-length window handed to the
caller and sliced into a zero-length clip, violating the `start < end`
invariant. -/
theorem extractionWindow_counterexample :
    extractMusicWindow 10 [⟨"noEnergy", 12, 20⟩] = some (10, 10) ∧
    ¬((10 : ℚ) < 10) := by
  constructor
  · have h : isContentLabel "noEnergy" = false := by decide
    norm_num [extractMusicWindow, musicScan, h]
  · norm_num

/-- C8 (amended): with time-ordered inputs of nonnegative length, every
window handed back satisfies the weak inequality `start ≤ end` on the
tracker and music-segment paths, and the fixed fallback window always
satisfies `start < end` strictly; equality (a zero-length window) is
reachable on the first two paths, so the strict invariant does not
hold and no path checks for it. -/
theorem extractionWindow_invariant :
    (∀ (anchor : ℚ) (segs : List Segment) (w : ℚ × ℚ),
      (∀ seg ∈ segs, seg.start ≤ seg.endT) →
      segs.Pairwise (fun a b => a.start ≤ b.start) →
      boundaryTrack anchor segs = some w → w.1 ≤ w.2) ∧
    (∀ (anchor : ℚ) (labels : List LabeledInterval) (w : ℚ × ℚ),
      (∀ l ∈ labels, l.start ≤ l.endT) →
      labels.Pairwise (fun a b => a.start ≤ b.start) →
      extractMusicWindow anchor labels = some w → w.1 ≤ w.2) ∧
    (∀ anchor : ℚ,
      (extractFixedWindow anchor).1 < (extractFixedWindow anchor).2) := by
  refine ⟨?_, ?_, ?_⟩
  · intro anchor segs w hwf hpw hbt
    have h := runTracker_window_wf anchor segs (initState anchor) hwf hpw
      (Or.inl ⟨rfl, rfl⟩)
    simp only [boundaryTrack] at hbt
    rcases h with ⟨h1, h2⟩ | ⟨s, e, h1, h2, h3⟩
    · rw [h1, h2] at hbt
      exact absurd hbt (by simp)
    · rw [h1, h2] at hbt
      simp only [Option.some.injEq] at hbt
      rw [← hbt]
      exact h3
  · intro anchor labels w hwf hpw hmw
    simp only [extractMusicWindow] at hmw
    by_cases he : (labels.filter fun l => decide (anchor ≤ l.start)).isEmpty
    · rw [if_pos he] at hmw
      exact absurd hmw (by simp)
    · rw [if_neg he] at hmw
      simp only [Option.some.injEq] at hmw
      rw [← hmw]
      apply musicScan_wf
      · exact fun l hl => hwf l (List.mem_filter.1 hl).1
      · exact List.Pairwise.sublist (List.filter_sublist _) hpw
      · exact Or.inl ⟨rfl, rfl⟩
  · intro anchor
    simp only [extractFixedWindow]
    linarith

/-- Witness for `extractionWindow_invariant`: a single well-formed
English segment yields the window `(1, 5)` with `start ≤ end`. -/
theorem extractionWindow_invariant_witness :
    boundaryTrack 0 [⟨1, 5, cexTextEn1⟩] = some (1, 5) ∧ (1 : ℚ) ≤ 5 := by
  have h1 : isEnglishSegment cexTextEn1 = true := by decide
  have heval : boundaryTrack 0 [⟨1, 5, cexTextEn1⟩] = some (1, 5) := by
    norm_num [boundaryTrack, runTracker, trackStep, initState, h1]
  refine ⟨heval, ?_⟩
  exact extractionWindow_invariant.1 0 [⟨1, 5, cexTextEn1⟩] (1, 5)
    (by
      intro s hs
      simp only [List.mem_cons, List.not_mem_nil, or_false] at hs
      subst hs
      norm_num)
    (by simp)
    heval
